import Mathlib

/-!
Verification development for the wobble background estimator and
significance calculator used by the analysis-school notebooks
(Step2_check_signal_from_dl2): livetime accumulation, Li&Ma
significance, OFF-region generation and the per-observation theta2
assignment.
-/

/-! ## Livetime accumulation

The notebook computes, over the timestamp column of the concatenated
event table (indexed and index-sorted by obs_id, event_id, tel_id):
  time_diffs = np.diff(event_data_mean["timestamp"])
  obs_time   = time_diffs[time_diffs < 1].sum()
Timestamps are modelled as exact rationals. -/

/-- np.diff of the timestamp column: consecutive differences. -/
def time_diffs (ts : List ℚ) : List ℚ :=
  (ts.zip ts.tail).map (fun p => p.2 - p.1)

/-- The notebook's obs_time: the sum of the consecutive timestamp
differences that are strictly below 1 second. -/
def obs_time (ts : List ℚ) : ℚ :=
  ((time_diffs ts).filter (fun d => d < 1)).sum

/-- Spec-side characterisation of the livetime: the sum of exactly those
consecutive timestamp differences that are below the gap threshold
(1 second), written as a direct recursion over the sequence. -/
def diffsBelow : List ℚ → ℚ
  | a :: b :: rest => (if b - a < 1 then b - a else 0) + diffsBelow (b :: rest)
  | _ => 0

/-- A row of the concatenated event table, keyed by (obs_id, event_id);
the tel_id level plays no role after the DL2-mean step, so it is left
out of the model. -/
structure Row where
  obs_id : ℕ
  event_id : ℕ
  timestamp : ℚ
deriving DecidableEq

/-- The (obs_id, event_id) index order produced by set_index/sort_index. -/
def idxLe (r s : Row) : Prop :=
  r.obs_id < s.obs_id ∨ (r.obs_id = s.obs_id ∧ r.event_id ≤ s.event_id)

instance : DecidableRel idxLe := fun r s =>
  inferInstanceAs (Decidable (r.obs_id < s.obs_id ∨
    (r.obs_id = s.obs_id ∧ r.event_id ≤ s.event_id)))

/-- A concrete two-observation table whose (obs_id, event_id) index
order disagrees with chronological order: the second observation was
recorded before the first. -/
def demoTable : List Row :=
  [⟨1, 0, 100⟩, ⟨1, 1, 201/2⟩, ⟨2, 0, 10⟩, ⟨2, 1, 51/5⟩]

/-- Per-observation livetime (what the spec's Livetime Accumulator would
report when applied within each obs_id separately and then summed). -/
def perObsLivetime (rows : List Row) : ℚ :=
  (((rows.map Row.obs_id).dedup).map
    (fun o => obs_time ((rows.filter (fun r => r.obs_id = o)).map Row.timestamp))).sum

/-! ## Li&Ma significance

The notebook delegates the significance to the external statistics
library (WStatCountsStatistic(n_on, n_off_total, alpha).sqrt_ts); that
library is not part of this repository.  The calculator is therefore
modelled from the spec (section 4.4). -/

/-- Scaled background estimate, as computed in the notebook:
n_off_scaled = n_off_total * alpha. -/
noncomputable def n_off_scaled (n_off_total alpha : ℝ) : ℝ := n_off_total * alpha

/-- Excess, as computed in the notebook: n_excess = n_on - n_off_scaled. -/
noncomputable def n_excess (n_on n_off_total alpha : ℝ) : ℝ :=
  n_on - n_off_scaled n_off_total alpha

/-- Modelled from the spec: the Li&Ma test statistic
TS = 2 * [ n_on * ln( ((1+alpha)/alpha) * (n_on/(n_on+n_off_total)) )
         + n_off_total * ln( (1+alpha) * (n_off_total/(n_on+n_off_total)) ) ]
of the external WStatCountsStatistic, which is not in the repository.
Real.log takes the value 0 at 0, which realises the spec's limit
convention x*ln(x) -> 0 for vanishing counts. -/
noncomputable def liMaTS (n_on n_off_total alpha : ℝ) : ℝ :=
  2 * (n_on * Real.log (((1 + alpha) / alpha) * (n_on / (n_on + n_off_total)))
      + n_off_total * Real.log ((1 + alpha) * (n_off_total / (n_on + n_off_total))))

/-- Modelled from the spec: significance = sign(n_excess) * sqrt(TS). -/
noncomputable def significance (n_on n_off_total alpha : ℝ) : ℝ :=
  Real.sign (n_excess n_on n_off_total alpha) * Real.sqrt (liMaTS n_on n_off_total alpha)

/-- Modelled from the spec: when n_on + n_off_total = 0 the significance
is undefined and is reported as an explicit no-data value. -/
noncomputable def significanceOpt (n_on n_off_total alpha : ℝ) : Option ℝ :=
  if n_on + n_off_total = 0 then none else some (significance n_on n_off_total alpha)

/-- The two logarithm arguments of the test statistic, named for reuse. -/
noncomputable def zOn (n m a : ℝ) : ℝ := ((1 + a) / a) * (n / (n + m))

noncomputable def zOff (n m a : ℝ) : ℝ := (1 + a) * (m / (n + m))

/-! ## OFF-region generation

calculate_off_coordinates comes from the external magicctapipe.utils
module and is not part of this repository; it is modelled from the spec
(section 4.1): the OFF positions are obtained by rotating the ON
position around the pointing direction in equal azimuthal steps of
360/(N+1) degrees, skipping the slot occupied by the ON region.  The
spec explicitly allows the flat-plane variant of the rotation for the
small offsets of this application; that variant is used here. -/

noncomputable def cosd (x : ℝ) : ℝ := Real.cos (x * Real.pi / 180)

noncomputable def sind (x : ℝ) : ℝ := Real.sin (x * Real.pi / 180)

/-- Rotation of a sky position around the pointing direction by an angle
given in degrees. -/
noncomputable def rotAbout (pnt_ra pnt_dec θ : ℝ) (p : ℝ × ℝ) : ℝ × ℝ :=
  (pnt_ra + (cosd θ * (p.1 - pnt_ra) - sind θ * (p.2 - pnt_dec)),
   pnt_dec + (sind θ * (p.1 - pnt_ra) + cosd θ * (p.2 - pnt_dec)))

/-- Modelled from the spec: OFF region i (i = 1..N) is the ON position
rotated around the pointing direction by i * 360/(N+1) degrees. -/
noncomputable def calculate_off_coordinates (pnt_ra pnt_dec on_ra on_dec : ℝ)
    (n_regions : ℕ) : List (ℝ × ℝ) :=
  (List.range n_regions).map
    (fun (i : ℕ) => rotAbout pnt_ra pnt_dec
      (((i : ℝ) + 1) * (360 / ((n_regions : ℝ) + 1))) (on_ra, on_dec))

/-! ## Event table and theta2 assignment

Model of the per-observation loop of the notebook: for every obs_id
found in the table, the mean pointing of that group is computed, the
OFF coordinates are derived from it, and the theta2_on / theta2_off
columns are written into the rows of that observation; all other rows
and all other columns are untouched.  Angular separations are the
great-circle separations of the coordinates library (degrees). -/

/-- Great-circle angular separation in degrees between two sky
positions given in degrees. -/
noncomputable def separation_deg (ra1 dec1 ra2 dec2 : ℝ) : ℝ :=
  (180 / Real.pi) *
    Real.arccos (sind dec1 * sind dec2 + cosd dec1 * cosd dec2 * cosd (ra1 - ra2))

/-- Squared angular distance (degrees squared). -/
noncomputable def theta2 (ra1 dec1 ra2 dec2 : ℝ) : ℝ :=
  separation_deg ra1 dec1 ra2 dec2 ^ 2

/-- One row of event_data_mean.  theta2_on and theta2_off are the
derived columns; they are absent (none / empty) until the assignment
writes them. -/
structure Event where
  obs_id : ℕ
  reco_ra : ℝ
  reco_dec : ℝ
  reco_energy : ℝ
  gammaness : ℝ
  combo_type : ℕ
  pointing_ra : ℝ
  pointing_dec : ℝ
  timestamp : ℝ
  theta2_on : Option ℝ
  theta2_off : List ℝ

/-- The non-derived columns of an event: everything the theta2
assignment must not touch. -/
structure EventCore where
  obs_id : ℕ
  reco_ra : ℝ
  reco_dec : ℝ
  reco_energy : ℝ
  gammaness : ℝ
  combo_type : ℕ
  pointing_ra : ℝ
  pointing_dec : ℝ
  timestamp : ℝ

def Event.core (e : Event) : EventCore :=
  ⟨e.obs_id, e.reco_ra, e.reco_dec, e.reco_energy, e.gammaness, e.combo_type,
   e.pointing_ra, e.pointing_dec, e.timestamp⟩

/-- Column mean over a group, as pandas mean(). -/
noncomputable def mean (l : List ℝ) : ℝ := l.sum / l.length

/-- The rows of one observation (the query obs_id == o). -/
def obsGroup (t : List Event) (o : ℕ) : List Event :=
  t.filter (fun e => e.obs_id = o)

noncomputable def pntRaMean (t : List Event) (o : ℕ) : ℝ :=
  mean ((obsGroup t o).map Event.pointing_ra)

noncomputable def pntDecMean (t : List Event) (o : ℕ) : ℝ :=
  mean ((obsGroup t o).map Event.pointing_dec)

/-- Write the theta2_on / theta2_off columns of one event, from the
mean pointing of its observation group.  (The notebook writes the
columns into the table slice one at a time; writing them jointly into
the row yields the same final table.) -/
noncomputable def updTheta (on_ra on_dec : ℝ) (nOff : ℕ) (pra pdec : ℝ)
    (e : Event) : Event :=
  { e with
    theta2_on := some (theta2 e.reco_ra e.reco_dec on_ra on_dec),
    theta2_off :=
      (calculate_off_coordinates pra pdec on_ra on_dec nOff).map
        (fun c => theta2 e.reco_ra e.reco_dec c.1 c.2) }

/-- One iteration of the notebook loop: process observation o, writing
the theta2 columns of the rows with obs_id = o. -/
noncomputable def assignThetaObs (on_ra on_dec : ℝ) (nOff : ℕ)
    (t : List Event) (o : ℕ) : List Event :=
  t.map (fun e =>
    if e.obs_id = o then
      updTheta on_ra on_dec nOff (pntRaMean t o) (pntDecMean t o) e
    else e)

/-- The observation ids of the table (np.unique of the obs_id level;
np.unique also sorts, but the loop result does not depend on the order
in which the disjoint observation groups are processed, so the
duplicate-free id list is used directly). -/
def obsIds (t : List Event) : List ℕ := (t.map Event.obs_id).dedup

/-- The whole notebook loop over observation ids. -/
noncomputable def assignTheta2 (on_ra on_dec : ℝ) (nOff : ℕ)
    (t : List Event) : List Event :=
  (obsIds t).foldl (assignThetaObs on_ra on_dec nOff) t

/-! ## Theorems -/

theorem obs_time_eq_diffsBelow (ts : List ℚ) : obs_time ts = diffsBelow ts := by
  induction ts with
  | nil => rfl
  | cons a tl ih =>
    cases tl with
    | nil => rfl
    | cons b rest =>
      have h : obs_time (a :: b :: rest)
          = (if b - a < 1 then b - a else 0) + obs_time (b :: rest) := by
        by_cases hb : b - a < 1
        · simp [obs_time, time_diffs, hb]
        · simp [obs_time, time_diffs, hb]
      rw [h, ih]
      rfl

theorem n_excess_eq (n m a : ℝ) : n_excess n m a = n - m * a := rfl

theorem liMaTS_zero_zero (a : ℝ) : liMaTS 0 0 a = 0 := by
  simp [liMaTS]

theorem liMaTS_on_zero (m a : ℝ) (hm : 0 < m) :
    liMaTS 0 m a = 2 * (m * Real.log (1 + a)) := by
  have hm' : m ≠ 0 := ne_of_gt hm
  simp [liMaTS, div_self hm']

theorem liMaTS_off_zero (n a : ℝ) (hn : 0 < n) :
    liMaTS n 0 a = 2 * (n * Real.log ((1 + a) / a)) := by
  have hn' : n ≠ 0 := ne_of_gt hn
  simp [liMaTS, div_self hn']

theorem liMaTS_eq_z (n m a : ℝ) :
    liMaTS n m a = 2 * (n * Real.log (zOn n m a) + m * Real.log (zOff n m a)) := rfl

theorem zOn_pos (n m a : ℝ) (hn : 0 < n) (hm : 0 ≤ m) (ha : 0 < a) :
    0 < zOn n m a := by
  have hs : 0 < n + m := by linarith
  exact mul_pos (div_pos (by linarith) ha) (div_pos hn hs)

theorem zOff_pos (n m a : ℝ) (hn : 0 ≤ n) (hm : 0 < m) (ha : 0 < a) :
    0 < zOff n m a := by
  have hs : 0 < n + m := by linarith
  exact mul_pos (by linarith) (div_pos hm hs)

/-- Key algebraic identity behind the Gibbs inequality: the linear
lower bounds of the two log terms cancel exactly. -/
theorem gibbs_cancel (n m a : ℝ) (hn : 0 < n) (hm : 0 < m) (ha : 0 < a) :
    n * (1 - (zOn n m a)⁻¹) + m * (1 - (zOff n m a)⁻¹) = 0 := by
  have hs : n + m ≠ 0 := by positivity
  have ha' : a ≠ 0 := ne_of_gt ha
  have ha1 : 1 + a ≠ 0 := by positivity
  have hn' : n ≠ 0 := ne_of_gt hn
  have hm' : m ≠ 0 := ne_of_gt hm
  unfold zOn zOff
  field_simp
  ring

theorem liMaTS_nonneg (n m a : ℝ) (hn : 0 ≤ n) (hm : 0 ≤ m) (ha : 0 < a) :
    0 ≤ liMaTS n m a := by
  rcases eq_or_lt_of_le hn with hn0 | hnpos
  · rcases eq_or_lt_of_le hm with hm0 | hmpos
    · rw [← hn0, ← hm0, liMaTS_zero_zero]
    · rw [← hn0, liMaTS_on_zero m a hmpos]
      have : (0:ℝ) ≤ Real.log (1 + a) := Real.log_nonneg (by linarith)
      positivity
  · rcases eq_or_lt_of_le hm with hm0 | hmpos
    · rw [← hm0, liMaTS_off_zero n a hnpos]
      have h1 : (1:ℝ) ≤ (1 + a) / a := by
        rw [le_div_iff₀ ha]; linarith
      have : (0:ℝ) ≤ Real.log ((1 + a) / a) := Real.log_nonneg h1
      positivity
    · -- both counts positive: Gibbs inequality
      have hz1 := zOn_pos n m a hnpos hm ha
      have hz2 := zOff_pos n m a hn hmpos ha
      have h1 : 1 - (zOn n m a)⁻¹ ≤ Real.log (zOn n m a) :=
        Real.one_sub_inv_le_log_of_pos hz1
      have h2 : 1 - (zOff n m a)⁻¹ ≤ Real.log (zOff n m a) :=
        Real.one_sub_inv_le_log_of_pos hz2
      have hb1 : n * (1 - (zOn n m a)⁻¹) ≤ n * Real.log (zOn n m a) :=
        mul_le_mul_of_nonneg_left h1 (le_of_lt hnpos)
      have hb2 : m * (1 - (zOff n m a)⁻¹) ≤ m * Real.log (zOff n m a) :=
        mul_le_mul_of_nonneg_left h2 (le_of_lt hmpos)
      have hc := gibbs_cancel n m a hnpos hmpos ha
      rw [liMaTS_eq_z]
      nlinarith [hb1, hb2, hc]

theorem zOn_ne_one (n m a : ℝ) (hn : 0 < n) (hm : 0 < m) (ha : 0 < a)
    (hne : n ≠ a * m) : zOn n m a ≠ 1 := by
  intro h
  apply hne
  have hs : n + m ≠ 0 := by positivity
  have ha' : a ≠ 0 := ne_of_gt ha
  unfold zOn at h
  field_simp at h
  linarith

/-- Strict log bound: 1 - z⁻¹ < log z for positive z different from 1. -/
theorem one_sub_inv_lt_log (z : ℝ) (hz : 0 < z) (hz1 : z ≠ 1) :
    1 - z⁻¹ < Real.log z := by
  have hzi : 0 < z⁻¹ := inv_pos.mpr hz
  have hzi1 : z⁻¹ ≠ 1 := by
    intro h
    exact hz1 (by rw [← inv_inv z, h, inv_one])
  have h := Real.log_lt_sub_one_of_pos hzi hzi1
  rw [Real.log_inv] at h
  linarith

theorem liMaTS_pos (n m a : ℝ) (hn : 0 ≤ n) (hm : 0 ≤ m) (ha : 0 < a)
    (hs : 0 < n + m) (hne : n ≠ a * m) : 0 < liMaTS n m a := by
  rcases eq_or_lt_of_le hn with hn0 | hnpos
  · -- n = 0, so m > 0 and the statistic is 2 m log(1+a) > 0
    have hmpos : 0 < m := by
      rcases eq_or_lt_of_le hm with hm0 | h
      · exfalso; rw [← hn0, ← hm0] at hs; simp at hs
      · exact h
    rw [← hn0, liMaTS_on_zero m a hmpos]
    have : (0:ℝ) < Real.log (1 + a) := Real.log_pos (by linarith)
    positivity
  · rcases eq_or_lt_of_le hm with hm0 | hmpos
    · rw [← hm0, liMaTS_off_zero n a hnpos]
      have h1 : (1:ℝ) < (1 + a) / a := by
        rw [lt_div_iff₀ ha]; linarith
      have : (0:ℝ) < Real.log ((1 + a) / a) := Real.log_pos h1
      positivity
    · -- both counts positive: strict Gibbs inequality
      have hz1 := zOn_pos n m a hnpos hm ha
      have hz2 := zOff_pos n m a hn hmpos ha
      have h1 : 1 - (zOn n m a)⁻¹ < Real.log (zOn n m a) :=
        one_sub_inv_lt_log _ hz1 (zOn_ne_one n m a hnpos hmpos ha hne)
      have h2 : 1 - (zOff n m a)⁻¹ ≤ Real.log (zOff n m a) :=
        Real.one_sub_inv_le_log_of_pos hz2
      have hb1 : n * (1 - (zOn n m a)⁻¹) < n * Real.log (zOn n m a) :=
        (mul_lt_mul_left hnpos).mpr h1
      have hb2 : m * (1 - (zOff n m a)⁻¹) ≤ m * Real.log (zOff n m a) :=
        mul_le_mul_of_nonneg_left h2 (le_of_lt hmpos)
      have hc := gibbs_cancel n m a hnpos hmpos ha
      rw [liMaTS_eq_z]
      nlinarith [hb1, hb2, hc]

theorem liMaTS_zero_excess (m a : ℝ) (hm : 0 ≤ m) (ha : 0 < a) :
    liMaTS (a * m) m a = 0 := by
  rcases eq_or_lt_of_le hm with hm0 | hmpos
  · rw [← hm0]
    simpa using liMaTS_zero_zero a
  · have hs : a * m + m ≠ 0 := by positivity
    have ha' : a ≠ 0 := ne_of_gt ha
    have hm' : m ≠ 0 := ne_of_gt hmpos
    have ha1 : (1:ℝ) + a ≠ 0 := by positivity
    have h1 : zOn (a * m) m a = 1 := by
      unfold zOn; field_simp; ring
    have h2 : zOff (a * m) m a = 1 := by
      unfold zOff; field_simp; ring
    rw [liMaTS_eq_z, h1, h2, Real.log_one]
    ring

/-! ### Sign of the significance -/

theorem significance_of_pos_excess (n m a : ℝ) (hn : 0 ≤ n) (hm : 0 ≤ m)
    (ha : 0 < a) (h : a * m < n) : 0 < significance n m a := by
  have hex : 0 < n_excess n m a := by rw [n_excess_eq]; nlinarith
  have hnpos : 0 < n := lt_of_le_of_lt (by positivity) h
  have hts : 0 < liMaTS n m a :=
    liMaTS_pos n m a hn hm ha (by linarith) (by intro he; rw [he] at h; exact lt_irrefl _ h)
  rw [significance, Real.sign_of_pos hex, one_mul]
  exact Real.sqrt_pos.mpr hts

theorem significance_of_neg_excess (n m a : ℝ) (hn : 0 ≤ n) (hm : 0 ≤ m)
    (ha : 0 < a) (h : n < a * m) : significance n m a < 0 := by
  have hex : n_excess n m a < 0 := by rw [n_excess_eq]; nlinarith
  have hmpos : 0 < m := by nlinarith
  have hts : 0 < liMaTS n m a :=
    liMaTS_pos n m a hn hm ha (by linarith) (by intro he; rw [he] at h; exact lt_irrefl _ h)
  rw [significance, Real.sign_of_neg hex, neg_one_mul]
  exact neg_neg_of_pos (Real.sqrt_pos.mpr hts)

theorem significance_of_zero_excess (m a : ℝ) :
    significance (a * m) m a = 0 := by
  have hex : n_excess (a * m) m a = 0 := by rw [n_excess_eq]; ring
  rw [significance, hex, Real.sign_zero, zero_mul]

/-! ### Monotonicity of the significance in the ON count -/

theorem liMaTS_hasDerivAt (m a n : ℝ) (hm : 0 < m) (ha : 0 < a) (hn : 0 < n) :
    HasDerivAt (fun x => liMaTS x m a) (2 * Real.log (zOn n m a)) n := by
  have hs : (0:ℝ) < n + m := by linarith
  have hsne : n + m ≠ 0 := ne_of_gt hs
  have hc1 : (0:ℝ) < (1 + a) / a := div_pos (by linarith) ha
  have hn' : n ≠ 0 := ne_of_gt hn
  have hm' : m ≠ 0 := ne_of_gt hm
  have ha' : a ≠ 0 := ne_of_gt ha
  have ha1 : (1:ℝ) + a ≠ 0 := by positivity
  have hd : HasDerivAt (fun x : ℝ => x + m) 1 n := (hasDerivAt_id n).add_const m
  have hq : HasDerivAt (fun x : ℝ => x / (x + m))
      ((1 * (n + m) - n * 1) / (n + m) ^ 2) n := (hasDerivAt_id n).div hd hsne
  have hu : HasDerivAt (fun x : ℝ => (1 + a) / a * (x / (x + m)))
      ((1 + a) / a * ((1 * (n + m) - n * 1) / (n + m) ^ 2)) n :=
    HasDerivAt.const_mul _ hq
  have huv : (1 + a) / a * (n / (n + m)) ≠ 0 :=
    ne_of_gt (mul_pos hc1 (div_pos hn hs))
  have hlog1 : HasDerivAt (fun x : ℝ => Real.log ((1 + a) / a * (x / (x + m))))
      ((1 + a) / a * ((1 * (n + m) - n * 1) / (n + m) ^ 2)
        / ((1 + a) / a * (n / (n + m)))) n := hu.log huv
  have hterm1 : HasDerivAt (fun x : ℝ => x * Real.log ((1 + a) / a * (x / (x + m))))
      (1 * Real.log ((1 + a) / a * (n / (n + m)))
        + n * ((1 + a) / a * ((1 * (n + m) - n * 1) / (n + m) ^ 2)
          / ((1 + a) / a * (n / (n + m))))) n :=
    (hasDerivAt_id n).mul hlog1
  have hw : HasDerivAt (fun x : ℝ => m / (x + m))
      ((0 * (n + m) - m * 1) / (n + m) ^ 2) n := (hasDerivAt_const n m).div hd hsne
  have hv : HasDerivAt (fun x : ℝ => (1 + a) * (m / (x + m)))
      ((1 + a) * ((0 * (n + m) - m * 1) / (n + m) ^ 2)) n := HasDerivAt.const_mul _ hw
  have hvv : (1 + a) * (m / (n + m)) ≠ 0 :=
    ne_of_gt (mul_pos (by linarith) (div_pos hm hs))
  have hlog2 := hv.log hvv
  have hterm2 := HasDerivAt.const_mul m hlog2
  have hsum := hterm1.add hterm2
  have htot := HasDerivAt.const_mul (2:ℝ) hsum
  have hfun : (fun x : ℝ => 2 * (x * Real.log ((1 + a) / a * (x / (x + m)))
      + m * Real.log ((1 + a) * (m / (x + m))))) = fun x => liMaTS x m a := by
    funext x; rw [liMaTS]
  rw [hfun] at htot
  convert htot using 1
  rw [zOn]
  field_simp
  ring

theorem zOn_gt_one (m a x : ℝ) (hm : 0 < m) (ha : 0 < a) (hx : a * m < x) :
    1 < zOn x m a := by
  have hxpos : 0 < x := lt_of_le_of_lt (by positivity) hx
  have hs : 0 < x + m := by linarith
  rw [zOn, div_mul_div_comm, one_lt_div (by positivity : (0:ℝ) < a * (x + m))]
  nlinarith

theorem zOn_lt_one (m a x : ℝ) (hm : 0 < m) (ha : 0 < a) (hx0 : 0 < x)
    (hx : x < a * m) : zOn x m a < 1 := by
  have hs : 0 < x + m := by linarith
  rw [zOn, div_mul_div_comm, div_lt_one (by positivity : (0:ℝ) < a * (x + m))]
  nlinarith

theorem liMaTS_strictMonoOn (m a : ℝ) (hm : 0 < m) (ha : 0 < a) :
    StrictMonoOn (fun x => liMaTS x m a) (Set.Ici (a * m)) := by
  have ham : 0 < a * m := mul_pos ha hm
  apply strictMonoOn_of_deriv_pos (convex_Ici _)
  · intro x hx
    have hx' : 0 < x := lt_of_lt_of_le ham hx
    exact (liMaTS_hasDerivAt m a x hm ha hx').continuousAt.continuousWithinAt
  · intro x hx
    rw [interior_Ici] at hx
    have hx' : a * m < x := hx
    have hxpos : 0 < x := ham.trans hx'
    rw [(liMaTS_hasDerivAt m a x hm ha hxpos).deriv]
    have h1 : 1 < zOn x m a := zOn_gt_one m a x hm ha hx'
    have h2 : 0 < Real.log (zOn x m a) := Real.log_pos h1
    positivity

theorem liMaTS_strictAntiOn (m a : ℝ) (hm : 0 < m) (ha : 0 < a) :
    StrictAntiOn (fun x => liMaTS x m a) (Set.Icc 0 (a * m)) := by
  have ham : 0 < a * m := mul_pos ha hm
  apply strictAntiOn_of_deriv_neg (convex_Icc _ _)
  · -- continuity down to x = 0 via the x*log x form
    have hG : ContinuousOn (fun x : ℝ => 2 * ((x * Real.log x
        + x * Real.log ((1 + a) / a / (x + m)))
        + m * Real.log ((1 + a) * (m / (x + m))))) (Set.Icc 0 (a * m)) := by
      intro x hx
      have hxm : 0 < x + m := by have := hx.1; linarith
      apply ContinuousAt.continuousWithinAt
      have hden : ContinuousAt (fun x : ℝ => x + m) x :=
        continuousAt_id.add continuousAt_const
      have h2i : ContinuousAt (fun x : ℝ => (1 + a) / a / (x + m)) x :=
        continuousAt_const.div hden (ne_of_gt hxm)
      have h2 : ContinuousAt (fun x : ℝ => Real.log ((1 + a) / a / (x + m))) x := by
        have hpos : (0:ℝ) < (1 + a) / a / (x + m) :=
          div_pos (div_pos (by linarith) ha) hxm
        exact h2i.log (ne_of_gt hpos)
      have h3i : ContinuousAt (fun x : ℝ => (1 + a) * (m / (x + m))) x :=
        continuousAt_const.mul (continuousAt_const.div hden (ne_of_gt hxm))
      have h3 : ContinuousAt (fun x : ℝ => Real.log ((1 + a) * (m / (x + m)))) x := by
        have hpos : (0:ℝ) < (1 + a) * (m / (x + m)) :=
          mul_pos (by linarith) (div_pos hm hxm)
        exact h3i.log (ne_of_gt hpos)
      exact continuousAt_const.mul
        (((Real.continuous_mul_log.continuousAt).add (continuousAt_id.mul h2)).add
          (continuousAt_const.mul h3))
    apply hG.congr
    intro x hx
    rcases eq_or_lt_of_le hx.1 with hx0 | hxpos
    · rw [← hx0]
      simp [liMaTS]
    · simp only [liMaTS]
      have hxm : 0 < x + m := by linarith
      have harg : (1 + a) / a * (x / (x + m)) = x * ((1 + a) / a / (x + m)) := by
        ring
      rw [harg, Real.log_mul (ne_of_gt hxpos) (by positivity)]
      ring
  · intro x hx
    rw [interior_Icc] at hx
    rw [(liMaTS_hasDerivAt m a x hm ha hx.1).deriv]
    have h1 : zOn x m a < 1 := zOn_lt_one m a x hm ha hx.1 hx.2
    have h0 : 0 < zOn x m a := zOn_pos x m a hx.1 (le_of_lt hm) ha
    have hneg : Real.log (zOn x m a) < 0 := Real.log_neg h0 h1
    nlinarith

theorem significance_eq_neg_sqrt (n m a : ℝ) (h : n < a * m) :
    significance n m a = -Real.sqrt (liMaTS n m a) := by
  have hex : n_excess n m a < 0 := by
    rw [n_excess_eq, mul_comm m a]; linarith
  rw [significance, Real.sign_of_neg hex, neg_one_mul]

theorem significance_eq_sqrt (n m a : ℝ) (hm : 0 ≤ m) (ha : 0 < a)
    (h : a * m ≤ n) : significance n m a = Real.sqrt (liMaTS n m a) := by
  rcases eq_or_lt_of_le h with he | hlt
  · rw [← he, significance_of_zero_excess, liMaTS_zero_excess m a hm ha,
      Real.sqrt_zero]
  · have hex : 0 < n_excess n m a := by
      rw [n_excess_eq, mul_comm m a]; linarith
    rw [significance, Real.sign_of_pos hex, one_mul]

theorem significance_strictMono_in_n_on (m a n₁ n₂ : ℝ) (hm : 0 ≤ m) (ha : 0 < a)
    (h1 : 0 ≤ n₁) (h12 : n₁ < n₂) :
    significance n₁ m a < significance n₂ m a := by
  rcases eq_or_lt_of_le hm with hm0 | hmpos
  · -- background count zero
    subst hm0
    rcases eq_or_lt_of_le h1 with h10 | h1pos
    · have hs1 : significance n₁ 0 a = 0 := by
        rw [← h10]
        simpa using significance_of_zero_excess 0 a
      have hs2 : 0 < significance n₂ 0 a :=
        significance_of_pos_excess n₂ 0 a (by linarith) le_rfl ha
          (by simpa using lt_of_le_of_lt h1 h12)
      linarith
    · have hn2pos : 0 < n₂ := h1pos.trans h12
      have hc1 : (1:ℝ) < (1 + a) / a := by rw [lt_div_iff₀ ha]; linarith
      have hL : 0 < Real.log ((1 + a) / a) := Real.log_pos hc1
      have hTS : liMaTS n₁ 0 a < liMaTS n₂ 0 a := by
        rw [liMaTS_off_zero n₁ a h1pos, liMaTS_off_zero n₂ a hn2pos]
        nlinarith
      rw [significance_eq_sqrt n₁ 0 a le_rfl ha (by simpa using h1pos.le),
          significance_eq_sqrt n₂ 0 a le_rfl ha (by simpa using hn2pos.le)]
      exact Real.sqrt_lt_sqrt (liMaTS_nonneg n₁ 0 a h1 le_rfl ha) hTS
  · rcases le_or_lt n₂ (a * m) with hn2le | hn2gt
    · -- both counts in the decreasing branch, excess nonpositive
      have hn1lt : n₁ < a * m := lt_of_lt_of_le h12 hn2le
      have hmem1 : n₁ ∈ Set.Icc 0 (a * m) := ⟨h1, le_of_lt hn1lt⟩
      have hmem2 : n₂ ∈ Set.Icc 0 (a * m) := ⟨le_trans h1 (le_of_lt h12), hn2le⟩
      have hTS : liMaTS n₂ m a < liMaTS n₁ m a :=
        liMaTS_strictAntiOn m a hmpos ha hmem1 hmem2 h12
      have hs1 : significance n₁ m a = -Real.sqrt (liMaTS n₁ m a) :=
        significance_eq_neg_sqrt n₁ m a hn1lt
      have hs2 : significance n₂ m a = -Real.sqrt (liMaTS n₂ m a) := by
        rcases eq_or_lt_of_le hn2le with he | hlt
        · rw [he, significance_of_zero_excess,
            liMaTS_zero_excess m a (le_of_lt hmpos) ha, Real.sqrt_zero, neg_zero]
        · exact significance_eq_neg_sqrt n₂ m a hlt
      rw [hs1, hs2]
      have hlt := Real.sqrt_lt_sqrt
        (liMaTS_nonneg n₂ m a (le_trans h1 (le_of_lt h12)) (le_of_lt hmpos) ha) hTS
      linarith
    · rcases le_or_lt (a * m) n₁ with hn1ge | hn1lt
      · -- both counts in the increasing branch, excess nonnegative
        have hmem1 : n₁ ∈ Set.Ici (a * m) := hn1ge
        have hmem2 : n₂ ∈ Set.Ici (a * m) := le_of_lt hn2gt
        have hTS : liMaTS n₁ m a < liMaTS n₂ m a :=
          liMaTS_strictMonoOn m a hmpos ha hmem1 hmem2 h12
        rw [significance_eq_sqrt n₁ m a (le_of_lt hmpos) ha hn1ge,
            significance_eq_sqrt n₂ m a (le_of_lt hmpos) ha (le_of_lt hn2gt)]
        exact Real.sqrt_lt_sqrt (liMaTS_nonneg n₁ m a h1 (le_of_lt hmpos) ha) hTS
      · -- the two counts straddle the zero-excess point
        have hneg := significance_of_neg_excess n₁ m a h1 (le_of_lt hmpos) ha hn1lt
        have hpos := significance_of_pos_excess n₂ m a (by linarith) (le_of_lt hmpos)
          ha hn2gt
        linarith

theorem cosd_sq_add_sind_sq (θ : ℝ) : cosd θ ^ 2 + sind θ ^ 2 = 1 := by
  rw [cosd, sind]
  exact Real.cos_sq_add_sin_sq _

theorem cosd_add (α β : ℝ) : cosd (α + β) = cosd α * cosd β - sind α * sind β := by
  simp only [cosd, sind]
  rw [show (α + β) * Real.pi / 180 = α * Real.pi / 180 + β * Real.pi / 180 by ring]
  exact Real.cos_add _ _

theorem sind_add (α β : ℝ) : sind (α + β) = sind α * cosd β + cosd α * sind β := by
  simp only [cosd, sind]
  rw [show (α + β) * Real.pi / 180 = α * Real.pi / 180 + β * Real.pi / 180 by ring]
  exact Real.sin_add _ _

/-- Composing two rotations about the pointing adds the angles. -/
theorem rotAbout_rotAbout (pr pd α β : ℝ) (p : ℝ × ℝ) :
    rotAbout pr pd α (rotAbout pr pd β p) = rotAbout pr pd (α + β) p := by
  simp only [rotAbout, Prod.mk.injEq]
  rw [cosd_add, sind_add]
  constructor <;> ring

/-- Rotation about the pointing preserves the (flat) squared angular
separation from the pointing. -/
theorem rotAbout_dist (pr pd θ : ℝ) (p : ℝ × ℝ) :
    ((rotAbout pr pd θ p).1 - pr) ^ 2 + ((rotAbout pr pd θ p).2 - pd) ^ 2
      = (p.1 - pr) ^ 2 + (p.2 - pd) ^ 2 := by
  have h := cosd_sq_add_sind_sq θ
  simp only [rotAbout]
  linear_combination ((p.1 - pr) ^ 2 + (p.2 - pd) ^ 2) * h

theorem cosd_ne_one (θ : ℝ) (h0 : 0 < θ) (h360 : θ < 360) : cosd θ ≠ 1 := by
  rw [cosd]
  have hπ := Real.pi_pos
  have h1 : -(2 * Real.pi) < θ * Real.pi / 180 := by nlinarith
  have h2 : θ * Real.pi / 180 < 2 * Real.pi := by nlinarith
  intro hc
  have h0' := (Real.cos_eq_one_iff_of_lt_of_lt h1 h2).mp hc
  nlinarith

/-- A rotation through an angle whose cosine is not 1 moves every point
other than the pointing itself. -/
theorem rotAbout_ne_self (pr pd θ : ℝ) (p : ℝ × ℝ) (hp : p ≠ (pr, pd))
    (hc : cosd θ ≠ 1) : rotAbout pr pd θ p ≠ p := by
  intro h
  have h1 : pr + (cosd θ * (p.1 - pr) - sind θ * (p.2 - pd)) = p.1 :=
    congrArg Prod.fst h
  have h2 : pd + (sind θ * (p.1 - pr) + cosd θ * (p.2 - pd)) = p.2 :=
    congrArg Prod.snd h
  have hxy : (p.1 - pr) ^ 2 + (p.2 - pd) ^ 2 ≠ 0 := by
    intro hz
    apply hp
    have hx : p.1 - pr = 0 := by nlinarith [sq_nonneg (p.1 - pr), sq_nonneg (p.2 - pd)]
    have hy : p.2 - pd = 0 := by nlinarith [sq_nonneg (p.1 - pr), sq_nonneg (p.2 - pd)]
    have hpair : p = (p.1, p.2) := rfl
    rw [hpair, Prod.mk.injEq]
    constructor <;> linarith
  have h1' : cosd θ * (p.1 - pr) - sind θ * (p.2 - pd) = p.1 - pr := by linarith
  have h2' : sind θ * (p.1 - pr) + cosd θ * (p.2 - pd) = p.2 - pd := by linarith
  have key : (cosd θ - 1) * ((p.1 - pr) ^ 2 + (p.2 - pd) ^ 2) = 0 := by
    linear_combination (p.1 - pr) * h1' + (p.2 - pd) * h2'
  rcases mul_eq_zero.mp key with hk | hk
  · exact hc (by linarith)
  · exact hxy hk

theorem updTheta_core (r d : ℝ) (nOff : ℕ) (p q : ℝ) (e : Event) :
    (updTheta r d nOff p q e).core = e.core := rfl

theorem updTheta_obs_id (r d : ℝ) (nOff : ℕ) (p q : ℝ) (e : Event) :
    (updTheta r d nOff p q e).obs_id = e.obs_id := rfl

theorem updTheta_updTheta (r d : ℝ) (nOff : ℕ) (p q p' q' : ℝ) (e : Event) :
    updTheta r d nOff p q (updTheta r d nOff p' q' e) = updTheta r d nOff p q e := rfl

/-- Maps that preserve the core columns do not change a group's mean
pointing right ascension. -/
theorem pntRaMean_map (f : Event → Event) (hf : ∀ e, (f e).core = e.core)
    (t : List Event) (o : ℕ) : pntRaMean (t.map f) o = pntRaMean t o := by
  have hobs : ∀ e, (f e).obs_id = e.obs_id :=
    fun e => congrArg EventCore.obs_id (hf e)
  have hpra : ∀ e, (f e).pointing_ra = e.pointing_ra :=
    fun e => congrArg EventCore.pointing_ra (hf e)
  have hlist : (obsGroup (t.map f) o).map Event.pointing_ra
      = (obsGroup t o).map Event.pointing_ra := by
    induction t with
    | nil => rfl
    | cons e tl ih =>
      simp only [obsGroup, List.map_cons, List.filter_cons] at *
      rw [hobs e]
      by_cases h : e.obs_id = o
      · simp [h, hpra e, ih]
      · simp [h, ih]
  rw [pntRaMean, pntRaMean, hlist]

theorem pntDecMean_map (f : Event → Event) (hf : ∀ e, (f e).core = e.core)
    (t : List Event) (o : ℕ) : pntDecMean (t.map f) o = pntDecMean t o := by
  have hobs : ∀ e, (f e).obs_id = e.obs_id :=
    fun e => congrArg EventCore.obs_id (hf e)
  have hpd : ∀ e, (f e).pointing_dec = e.pointing_dec :=
    fun e => congrArg EventCore.pointing_dec (hf e)
  have hlist : (obsGroup (t.map f) o).map Event.pointing_dec
      = (obsGroup t o).map Event.pointing_dec := by
    induction t with
    | nil => rfl
    | cons e tl ih =>
      simp only [obsGroup, List.map_cons, List.filter_cons] at *
      rw [hobs e]
      by_cases h : e.obs_id = o
      · simp [h, hpd e, ih]
      · simp [h, ih]
  rw [pntDecMean, pntDecMean, hlist]

theorem obsIds_map (f : Event → Event) (hf : ∀ e, (f e).core = e.core)
    (t : List Event) : obsIds (t.map f) = obsIds t := by
  have hobs : ∀ e, (f e).obs_id = e.obs_id :=
    fun e => congrArg EventCore.obs_id (hf e)
  rw [obsIds, obsIds, List.map_map]
  congr 1
  exact List.map_congr_left (fun e _ => hobs e)

/-- One loop iteration is a map by a core-preserving function. -/
theorem assignThetaObs_eq_map (r d : ℝ) (nOff : ℕ) (t : List Event) (o : ℕ) :
    assignThetaObs r d nOff t o = t.map (fun e =>
      if e.obs_id = o then updTheta r d nOff (pntRaMean t o) (pntDecMean t o) e
      else e) := rfl

theorem assignThetaObs_core (r d : ℝ) (nOff : ℕ) (t : List Event) (o : ℕ) :
    ∀ e, ((fun e =>
      if e.obs_id = o then updTheta r d nOff (pntRaMean t o) (pntDecMean t o) e
      else e) e).core = e.core := by
  intro e
  by_cases h : e.obs_id = o
  · simp [h, updTheta_core]
  · simp [h]

/-- The result of the whole loop, characterised row by row: every row
whose obs_id occurs in the processed id list gets its theta2 columns
computed from the mean pointing of its own group — which the loop
iterations never modify. -/
theorem foldl_assign_char (r d : ℝ) (nOff : ℕ) (L : List ℕ) (t : List Event) :
    L.foldl (assignThetaObs r d nOff) t = t.map (fun e =>
      if e.obs_id ∈ L then
        updTheta r d nOff (pntRaMean t e.obs_id) (pntDecMean t e.obs_id) e
      else e) := by
  induction L generalizing t with
  | nil => simp
  | cons o L ih =>
    rw [List.foldl_cons, ih (assignThetaObs r d nOff t o),
      assignThetaObs_eq_map r d nOff t o]
    have hf := assignThetaObs_core r d nOff t o
    simp only [pntRaMean_map _ hf t, pntDecMean_map _ hf t, List.map_map]
    apply List.map_congr_left
    intro e _
    simp only [Function.comp_apply]
    by_cases h1 : e.obs_id = o
    · by_cases h2 : e.obs_id ∈ L
      · simp [h1, h2, updTheta_obs_id, updTheta_updTheta]
      · simp [h1, h2, updTheta_obs_id, updTheta_updTheta]
    · by_cases h2 : e.obs_id ∈ L
      · simp [h1, h2]
      · simp [h1, h2]

/-- Row-wise characterisation of the full theta2 assignment. -/
theorem assignTheta2_char (r d : ℝ) (nOff : ℕ) (t : List Event) :
    assignTheta2 r d nOff t = t.map (fun e =>
      updTheta r d nOff (pntRaMean t e.obs_id) (pntDecMean t e.obs_id) e) := by
  rw [assignTheta2, foldl_assign_char]
  apply List.map_congr_left
  intro e he
  have hmem : e.obs_id ∈ obsIds t :=
    List.mem_dedup.mpr (List.mem_map_of_mem Event.obs_id he)
  simp [hmem]

/-- C8: the theta2 assignment is idempotent: recomputing theta2_on and
every theta2_off_i from the same reconstructed positions, ON position
and per-obs_id mean pointing a second time yields a table identical to
applying the assignment once. -/
theorem theta2_assignment_idempotent (r d : ℝ) (nOff : ℕ) (t : List Event) :
    assignTheta2 r d nOff (assignTheta2 r d nOff t) = assignTheta2 r d nOff t := by
  have hf : ∀ e, ((fun e =>
      updTheta r d nOff (pntRaMean t e.obs_id) (pntDecMean t e.obs_id) e) e).core
        = e.core := fun e => updTheta_core r d nOff _ _ e
  rw [assignTheta2_char r d nOff (assignTheta2 r d nOff t), assignTheta2_char r d nOff t]
  simp only [pntRaMean_map _ hf t, pntDecMean_map _ hf t, List.map_map]
  apply List.map_congr_left
  intro e _
  simp only [Function.comp_apply, updTheta_obs_id, updTheta_updTheta]

/-- C9: frame property of one per-observation assignment step: the
table keeps its length, the non-derived columns (obs_id, reco_ra,
reco_dec, reco_energy, gammaness, combo_type, pointing_ra,
pointing_dec, timestamp) of every row are unchanged, and every row
belonging to a different obs_id is unchanged entirely. -/
theorem theta2_assignment_frame (r d : ℝ) (nOff : ℕ) (t : List Event) (o : ℕ) :
    (assignThetaObs r d nOff t o).length = t.length ∧
    (∀ i : ℕ, ((assignThetaObs r d nOff t o)[i]?).map Event.core
        = (t[i]?).map Event.core) ∧
    (∀ i : ℕ, ∀ e : Event, t[i]? = some e → e.obs_id ≠ o →
        (assignThetaObs r d nOff t o)[i]? = some e) := by
  refine ⟨by simp [assignThetaObs], ?_, ?_⟩
  · intro i
    rw [assignThetaObs_eq_map, List.getElem?_map]
    cases ht : t[i]? with
    | none => rfl
    | some e =>
      by_cases h : e.obs_id = o
      · simp [h, updTheta_core]
      · simp [h]
  · intro i e ht hne
    rw [assignThetaObs_eq_map, List.getElem?_map, ht]
    simp [hne]

/-- C1: for all non-negative counts with positive total and
alpha = 1/N, the calculator returns the signed square root
sign(n_excess) * sqrt(TS) of the Li&Ma test statistic, and the returned
significance always has the same sign as the excess. -/
theorem significance_formula_and_sign (N : ℕ) (n m : ℝ) (hN : 1 ≤ N)
    (hn : 0 ≤ n) (hm : 0 ≤ m) (hs : 0 < n + m) :
    significance n m (1 / N)
      = Real.sign (n_excess n m (1 / N)) * Real.sqrt (liMaTS n m (1 / N)) ∧
    Real.sign (significance n m (1 / N)) = Real.sign (n_excess n m (1 / N)) := by
  have hNpos : (0:ℝ) < N := by exact_mod_cast Nat.lt_of_lt_of_le Nat.zero_lt_one hN
  have ha : (0:ℝ) < 1 / N := by positivity
  refine ⟨rfl, ?_⟩
  rcases lt_trichotomy (n_excess n m (1 / N)) 0 with hlt | heq | hgt
  · have hcomm : m * (1 / (N:ℝ)) = 1 / (N:ℝ) * m := mul_comm _ _
    have h' : n < 1 / (N:ℝ) * m := by
      rw [n_excess_eq] at hlt; linarith
    have hneg := significance_of_neg_excess n m (1 / N) hn hm ha h'
    rw [Real.sign_of_neg hneg, Real.sign_of_neg hlt]
  · have hzero : significance n m (1 / N) = 0 := by
      rw [significance, heq, Real.sign_zero, zero_mul]
    rw [hzero, heq]
  · have hcomm : m * (1 / (N:ℝ)) = 1 / (N:ℝ) * m := mul_comm _ _
    have h' : 1 / (N:ℝ) * m < n := by
      rw [n_excess_eq] at hgt; linarith
    have hpos := significance_of_pos_excess n m (1 / N) hn hm ha h'
    rw [Real.sign_of_pos hpos, Real.sign_of_pos hgt]

theorem significance_formula_and_sign_witness :
    1 ≤ 3 ∧ (0:ℝ) ≤ 2 ∧ (0:ℝ) ≤ 3 ∧ (0:ℝ) < 2 + 3 ∧
    (significance 2 3 (1 / (3:ℕ))
        = Real.sign (n_excess 2 3 (1 / (3:ℕ))) * Real.sqrt (liMaTS 2 3 (1 / (3:ℕ))) ∧
      Real.sign (significance 2 3 (1 / (3:ℕ))) = Real.sign (n_excess 2 3 (1 / (3:ℕ)))) :=
  ⟨by norm_num, by norm_num, by norm_num, by norm_num,
    significance_formula_and_sign 3 2 3 (by norm_num) (by norm_num) (by norm_num)
      (by norm_num)⟩

/-- C2: zero-count edge cases, handled as limits: with one count zero
the corresponding x*ln(x) term vanishes, leaving a finite real value;
the concrete scenario n_on = 0, n_off_total = 30, alpha = 1/3 has
excess -10 and a (finite) negative significance; and with both counts
zero the significance is reported as the explicit no-data value none
rather than a failure. -/
theorem significance_zero_count_edge_cases (a : ℝ) (ha : 0 < a) :
    (∀ m : ℝ, 0 < m → liMaTS 0 m a = 2 * (m * Real.log (1 + a))) ∧
    (∀ n : ℝ, 0 < n → liMaTS n 0 a = 2 * (n * Real.log ((1 + a) / a))) ∧
    significanceOpt 0 0 a = none ∧
    n_excess 0 30 (1 / 3) = -10 ∧
    significanceOpt 0 30 (1 / 3) = some (significance 0 30 (1 / 3)) ∧
    significance 0 30 (1 / 3) < 0 := by
  refine ⟨fun m hm => liMaTS_on_zero m a hm, fun n hn => liMaTS_off_zero n a hn,
    ?_, ?_, ?_, ?_⟩
  · simp [significanceOpt]
  · norm_num [n_excess, n_off_scaled]
  · norm_num [significanceOpt]
  · exact significance_of_neg_excess 0 30 (1 / 3) le_rfl (by norm_num) (by norm_num)
      (by norm_num)

theorem significance_zero_count_edge_cases_witness :
    (0:ℝ) < 1 / 2 ∧
    ((∀ m : ℝ, 0 < m → liMaTS 0 m (1 / 2) = 2 * (m * Real.log (1 + 1 / 2))) ∧
      (∀ n : ℝ, 0 < n → liMaTS n 0 (1 / 2) = 2 * (n * Real.log ((1 + 1 / 2) / (1 / 2)))) ∧
      significanceOpt 0 0 (1 / 2) = none ∧
      n_excess 0 30 (1 / 3) = -10 ∧
      significanceOpt 0 30 (1 / 3) = some (significance 0 30 (1 / 3)) ∧
      significance 0 30 (1 / 3) < 0) :=
  ⟨by norm_num, significance_zero_count_edge_cases (1 / 2) (by norm_num)⟩

/-- C5: for every alpha > 0 and counts with n_on = alpha * n_off_total
exactly (zero excess), the Li&Ma significance is exactly zero, and so
is the test statistic itself. -/
theorem significance_zero_when_zero_excess (a m n : ℝ) (ha : 0 < a)
    (hm : 0 ≤ m) (h : n = a * m) :
    significance n m a = 0 ∧ liMaTS n m a = 0 := by
  subst h
  exact ⟨significance_of_zero_excess m a, liMaTS_zero_excess m a hm ha⟩

theorem significance_zero_when_zero_excess_witness :
    (0:ℝ) < 1 / 3 ∧ (0:ℝ) ≤ 3 ∧ (1:ℝ) = 1 / 3 * 3 ∧
    (significance 1 3 (1 / 3) = 0 ∧ liMaTS 1 3 (1 / 3) = 0) :=
  ⟨by norm_num, by norm_num, by norm_num,
    significance_zero_when_zero_excess (1 / 3) 3 1 (by norm_num) (by norm_num)
      (by norm_num)⟩

/-- C6: holding n_off_total and alpha fixed, the significance is a
strictly increasing function of n_on. -/
theorem significance_strictly_increasing_in_n_on (a m n₁ n₂ : ℝ) (ha : 0 < a)
    (hm : 0 ≤ m) (h1 : 0 ≤ n₁) (h12 : n₁ < n₂) :
    significance n₁ m a < significance n₂ m a :=
  significance_strictMono_in_n_on m a n₁ n₂ hm ha h1 h12

theorem significance_strictly_increasing_in_n_on_witness :
    (0:ℝ) < 1 / 3 ∧ (0:ℝ) ≤ 3 ∧ (0:ℝ) ≤ 1 ∧ (1:ℝ) < 2 ∧
    significance 1 3 (1 / 3) < significance 2 3 (1 / 3) :=
  ⟨by norm_num, by norm_num, by norm_num, by norm_num,
    significance_strictly_increasing_in_n_on (1 / 3) 3 1 2 (by norm_num)
      (by norm_num) (by norm_num) (by norm_num)⟩

/-- C7: on the concrete input n_on = 120, n_off_total = 180,
alpha = 1/3 the calculator returns n_off_scaled = 60, n_excess = 60 and
a strictly positive significance equal to the Li&Ma formula value. -/
theorem significance_concrete_crab :
    n_off_scaled 180 (1 / 3) = 60 ∧ n_excess 120 180 (1 / 3) = 60 ∧
    0 < significance 120 180 (1 / 3) ∧
    significance 120 180 (1 / 3)
      = Real.sign (n_excess 120 180 (1 / 3)) * Real.sqrt (liMaTS 120 180 (1 / 3)) := by
  refine ⟨by norm_num [n_off_scaled], by norm_num [n_excess, n_off_scaled], ?_, rfl⟩
  exact significance_of_pos_excess 120 180 (1 / 3) (by norm_num) (by norm_num)
    (by norm_num) (by norm_num)

/-- C3: applied to a sample whose timestamps are sorted within each
obs_id, the livetime accumulator returns the sum of exactly those
consecutive timestamp differences that are below the 1-second gap
threshold; on the timestamps [0, 0.5, 1.0, 50.0, 50.3] it returns
1.3 seconds, excluding the 1.0 -> 50.0 gap. -/
theorem livetime_sum_of_below_threshold_diffs (rows : List Row)
    (hsorted : ∀ o : ℕ, List.Sorted (· ≤ ·)
      ((rows.filter (fun r => r.obs_id = o)).map Row.timestamp)) :
    obs_time (rows.map Row.timestamp) = diffsBelow (rows.map Row.timestamp) ∧
    obs_time [0, 1/2, 1, 50, 503/10] = 13/10 := by
  refine ⟨obs_time_eq_diffsBelow _, ?_⟩
  norm_num [obs_time, time_diffs]

theorem livetime_sum_of_below_threshold_diffs_witness :
    (∀ o : ℕ, List.Sorted (· ≤ ·)
      ((([] : List Row).filter (fun r => r.obs_id = o)).map Row.timestamp)) ∧
    (obs_time (([] : List Row).map Row.timestamp)
        = diffsBelow (([] : List Row).map Row.timestamp) ∧
      obs_time [0, 1/2, 1, 50, 503/10] = 13/10) :=
  ⟨fun o => by simp, livetime_sum_of_below_threshold_diffs [] (fun o => by simp)⟩

/-- C10: the observation-time computation differences the timestamp
column of the whole concatenated table, taken in (obs_id, event_id)
index order, and keeps every consecutive difference strictly below
1 second — including differences spanning an obs_id boundary and
negative differences when index order disagrees with chronological
order.  On the demo table the negative cross-boundary difference is
kept, giving -449/5 s, while per-obs_id differencing gives 7/10 s. -/
theorem obs_time_global_index_order_diffs :
    (∀ rows : List Row,
      obs_time (rows.map Row.timestamp) = diffsBelow (rows.map Row.timestamp)) ∧
    List.Chain' idxLe demoTable ∧
    demoTable.map Row.timestamp = [100, 201/2, 10, 51/5] ∧
    obs_time (demoTable.map Row.timestamp) = -449/5 ∧
    perObsLivetime demoTable = 7/10 := by
  refine ⟨fun rows => obs_time_eq_diffsBelow _, ?_, ?_, ?_, ?_⟩
  · simp [demoTable, idxLe, List.chain'_cons]
  · rfl
  · norm_num [demoTable, obs_time, time_diffs]
  · norm_num [demoTable, perObsLivetime, obs_time, time_diffs]

/-- C4: for every N ≥ 1, pointing direction and ON direction not
coincident with the pointing, the OFF-region generator produces
exactly N positions; each is at the same squared separation from the
pointing as the ON region; the first position is one azimuthal step of
360/(N+1) degrees away from the ON slot and each further position is
one additional such step, so the positions are equally spaced with the
ON slot skipped; and no OFF position coincides with the ON position. -/
theorem off_region_generator_spec (pr pd onr ond : ℝ) (N : ℕ) (hN : 1 ≤ N)
    (hne : (onr, ond) ≠ (pr, pd)) :
    (calculate_off_coordinates pr pd onr ond N).length = N ∧
    (∀ p ∈ calculate_off_coordinates pr pd onr ond N,
      (p.1 - pr) ^ 2 + (p.2 - pd) ^ 2 = (onr - pr) ^ 2 + (ond - pd) ^ 2) ∧
    (calculate_off_coordinates pr pd onr ond N)[0]?
      = some (rotAbout pr pd (360 / ((N:ℝ) + 1)) (onr, ond)) ∧
    (∀ i : ℕ, i + 1 < N →
      (calculate_off_coordinates pr pd onr ond N)[i + 1]?
        = Option.map (rotAbout pr pd (360 / ((N:ℝ) + 1)))
            ((calculate_off_coordinates pr pd onr ond N)[i]?)) ∧
    (∀ p ∈ calculate_off_coordinates pr pd onr ond N, p ≠ (onr, ond)) := by
  have hN0 : 0 < N := hN
  refine ⟨by simp [calculate_off_coordinates], ?_, ?_, ?_, ?_⟩
  · intro p hp
    obtain ⟨i, _, rfl⟩ := List.mem_map.mp hp
    simpa using rotAbout_dist pr pd _ (onr, ond)
  · rw [calculate_off_coordinates, List.getElem?_map, List.getElem?_range hN0]
    norm_num
  · intro i hi
    have hi' : i < N := Nat.lt_of_succ_lt hi
    rw [calculate_off_coordinates, List.getElem?_map, List.getElem?_map,
      List.getElem?_range hi, List.getElem?_range hi']
    simp only [Option.map]
    rw [rotAbout_rotAbout]
    have hang : ((i:ℝ) + 1 + 1) * (360 / ((N:ℝ) + 1))
        = 360 / ((N:ℝ) + 1) + ((i:ℝ) + 1) * (360 / ((N:ℝ) + 1)) := by ring
    congr 1
    push_cast
    rw [hang]
  · intro p hp
    obtain ⟨i, hi, rfl⟩ := List.mem_map.mp hp
    have hiN : i < N := List.mem_range.mp hi
    have hNpos : (0:ℝ) < (N:ℝ) + 1 := by positivity
    have hiR : (i:ℝ) + 1 < (N:ℝ) + 1 := by
      have : (i:ℝ) < (N:ℝ) := by exact_mod_cast hiN
      linarith
    have h0 : 0 < ((i:ℝ) + 1) * (360 / ((N:ℝ) + 1)) := by positivity
    have h360 : ((i:ℝ) + 1) * (360 / ((N:ℝ) + 1)) < 360 := by
      rw [← mul_div_assoc, div_lt_iff₀ hNpos]
      nlinarith
    exact rotAbout_ne_self pr pd _ (onr, ond) hne
      (cosd_ne_one _ h0 h360)

theorem off_region_generator_spec_witness :
    1 ≤ 3 ∧ ((1:ℝ), (0:ℝ)) ≠ ((0:ℝ), (0:ℝ)) ∧
    ((calculate_off_coordinates 0 0 1 0 3).length = 3 ∧
      (∀ p ∈ calculate_off_coordinates 0 0 1 0 3,
        (p.1 - 0) ^ 2 + (p.2 - 0) ^ 2 = ((1:ℝ) - 0) ^ 2 + ((0:ℝ) - 0) ^ 2) ∧
      (calculate_off_coordinates 0 0 1 0 3)[0]?
        = some (rotAbout 0 0 (360 / (((3:ℕ):ℝ) + 1)) (1, 0)) ∧
      (∀ i : ℕ, i + 1 < 3 →
        (calculate_off_coordinates 0 0 1 0 3)[i + 1]?
          = Option.map (rotAbout 0 0 (360 / (((3:ℕ):ℝ) + 1)))
              ((calculate_off_coordinates 0 0 1 0 3)[i]?)) ∧
      (∀ p ∈ calculate_off_coordinates 0 0 1 0 3, p ≠ ((1:ℝ), (0:ℝ)))) :=
  ⟨by norm_num, by norm_num [Prod.ext_iff],
    off_region_generator_spec 0 0 1 0 3 (by norm_num) (by norm_num [Prod.ext_iff])⟩
